import Mathlib

/-!
Verification of the document-ingestion core of the boann-security-risk-agent
repository. The definitions below are a shallow embedding, over `List Char`
and plain inductive data, of:

* `DocumentProcessorManager.chunk_text` (src/shared/document_processor.py),
* `DocumentProcessorManager._is_safe_path` and `process_document` (ditto),
* `PDFProcessor.extract_metadata` and `JSONProcessor.extract_metadata` (ditto),
* `correct_pgvector_score` (src/api/public_api.py), and
* the per-file loop of the `/ingest` handler (src/api/admin_api.py).

Strings are modelled as `List Char`; Python floats are modelled as exact
rationals (`ℚ`); file-system and third-party-library effects are modelled as
explicit data passed in.
-/

set_option maxHeartbeats 1000000

namespace Boann

/-- Whitespace characters: the ASCII subset matched by Python's regex class
for whitespace and by `str.strip` / `str.split`. -/
def isWsB (c : Char) : Bool :=
  c == ' ' || c == '\t' || c == '\n' || c == '\r' || c == '\x0b' || c == '\x0c'

/-- Sentence-ending punctuation of the chunker's boundary regex `(?<=[.!?])`. -/
def isPunctB (c : Char) : Bool :=
  c == '.' || c == '!' || c == '?'

/-- Python `str.strip()` on a list of characters: drop leading and trailing
whitespace. -/
def stripL (l : List Char) : List Char :=
  ((l.dropWhile isWsB).reverse.dropWhile isWsB).reverse

/-- Helper for `wordsOf`; the word being built is kept reversed in `acc`. -/
def wordsAux : List Char → List Char → List (List Char)
  | [], acc => if acc.isEmpty then [] else [acc.reverse]
  | c :: rest, acc =>
    if isWsB c then
      if acc.isEmpty then wordsAux rest [] else acc.reverse :: wordsAux rest []
    else
      wordsAux rest (c :: acc)

/-- Python `str.split()` (no argument): maximal whitespace-free runs, with
empty pieces dropped. -/
def wordsOf (l : List Char) : List (List Char) :=
  wordsAux l []

/-- Join pieces with a single space between consecutive pieces
(Python `" ".join(pieces)`). -/
def joinSp : List (List Char) → List Char
  | [] => []
  | [p] => p
  | p :: q :: rest => p ++ ' ' :: joinSp (q :: rest)

/-- `re.sub(r"\s+", " ", text.strip())`: with the ends trimmed, every maximal
whitespace run is replaced by a single space, which is exactly the single-space
join of the whitespace-separated words of `text`. -/
def normalizeWs (l : List Char) : List Char :=
  joinSp (wordsOf l)

/-- First character exists and is whitespace. -/
def headWsB : List Char → Bool
  | [] => false
  | c :: _ => isWsB c

/-- Worker for `splitSent`. The flag is true while the whitespace run of a
separator is being consumed; a piece ends at a `.`, `!` or `?` that is
followed by whitespace, and the whole whitespace run is the separator. -/
def splitSentM : Bool → List Char → List (List Char)
  | _, [] => [[]]
  | skip, c :: rest =>
    if skip && isWsB c then
      splitSentM true rest
    else if isPunctB c && headWsB rest then
      [c] :: splitSentM true rest
    else
      match splitSentM false rest with
      | [] => [[c]]
      | p :: ps => (c :: p) :: ps

/-- `re.split(r"(?<=[.!?])\s+", text)`. On the empty string `re.split`
returns one empty piece. -/
def splitSent (l : List Char) : List (List Char) :=
  splitSentM false l

/-- The seed of a fresh chunk buffer after the buffer `cur` is closed in
`chunk_text`: when overlap is enabled and the closed buffer is longer than the
overlap, the buffer's last `ov` characters, a space, and the next sentence;
otherwise just the next sentence. -/
def seedBuf (ov : Nat) (cur s : List Char) : List Char :=
  if 0 < ov ∧ ov < cur.length then
    cur.drop (cur.length - ov) ++ ' ' :: s
  else
    s

/-- The sentence-accumulation loop of `chunk_text` (the `for sentence in
sentences` loop plus the final flush): `cur` is `current_chunk`, the returned
list is `chunks` in order. -/
def sentLoop (cs ov : Nat) (cur : List Char) : List (List Char) → List (List Char)
  | [] => if stripL cur ≠ [] then [stripL cur] else []
  | s :: rest =>
    if cur.length + s.length > cs ∧ cur ≠ [] then
      stripL cur :: sentLoop cs ov (seedBuf ov cur s) rest
    else
      sentLoop cs ov (if cur = [] then s else cur ++ ' ' :: s) rest

/-- The word-repacking loop of `chunk_text` that re-splits one oversized chunk:
greedily pack whitespace-separated words so that `len(sub) + len(word) + 1`
stays within `chunk_size`; a word that does not fit starts a new sub-chunk
(and is emitted alone even when longer than `chunk_size`). -/
def packWords (cs : Nat) (sub : List Char) : List (List Char) → List (List Char)
  | [] => if sub ≠ [] then [sub] else []
  | w :: ws =>
    if sub.length + w.length + 1 ≤ cs then
      packWords cs (if sub = [] then w else sub ++ ' ' :: w) ws
    else
      if sub ≠ [] then sub :: packWords cs w ws else packWords cs w ws

/-- The `final_chunks` pass of `chunk_text`: chunks within the size bound are
kept, oversized chunks are re-split on words. -/
def resplitChunks (cs : Nat) : List (List Char) → List (List Char)
  | [] => []
  | c :: rest =>
    (if c.length ≤ cs then [c] else packWords cs [] (wordsOf c)) ++ resplitChunks cs rest

/-- The intermediate `chunks` list of `chunk_text` (sentence accumulation with
overlap, before the oversized-chunk word re-split). -/
def sentChunks (text : List Char) (cs ov : Nat) : List (List Char) :=
  sentLoop cs ov [] (splitSent (normalizeWs text))

/-- `DocumentProcessorManager.chunk_text(text, chunk_size)` with the instance
configuration `self.chunk_overlap = ov`. Mirrors the source: empty or
whitespace-only text gives no chunks; normalized text within the bound is one
chunk; otherwise sentence accumulation followed by the oversized-chunk
re-split. -/
def chunk_text (text : List Char) (cs ov : Nat) : List (List Char) :=
  if stripL text = [] then []
  else
    let t := normalizeWs text
    if t.length ≤ cs then [t]
    else resplitChunks cs (sentLoop cs ov [] (splitSent t))

/-- Python `s[-k:]` for `k > 0`: the last `k` characters (the whole string
when it is shorter than `k`). -/
def lastK (k : Nat) (l : List Char) : List Char :=
  l.drop (l.length - k)

/-- `startsList p l`: `p` occurs at the start of `l`. -/
def startsList : List Char → List Char → Bool
  | [], _ => true
  | _ :: _, [] => false
  | a :: as, b :: bs => a == b && startsList as bs

/-- The total character count of a list of chunks. -/
def sumLens (L : List (List Char)) : Nat :=
  (L.map List.length).sum

/-- The possible arguments of `correct_pgvector_score`, classified by how the
Python code treats them. Finite ints and floats are modelled as exact
rationals; `badStr` stands for any string other than "N/A" on which `float()`
raises ValueError, and `nonNumeric` for any object of a non-string non-number
type, on which `float()` raises TypeError. -/
inductive PyScoreIn where
  | na : PyScoreIn
  | noneV : PyScoreIn
  | num (q : ℚ) : PyScoreIn
  | inf : PyScoreIn
  | ninf : PyScoreIn
  | numStr (q : ℚ) : PyScoreIn
  | badStr : PyScoreIn
  | nonNumeric : PyScoreIn
deriving DecidableEq

/-- Outcome of a call to `correct_pgvector_score`: the original argument
passed through, a numeric return value, or an uncaught exception escaping
the function. -/
inductive PyScoreOut where
  | pass (v : PyScoreIn)
  | val (q : ℚ)
  | typeError
deriving DecidableEq

/-- The numeric branch of `correct_pgvector_score` for a positive finite
score: distance = 1/q, similarity = 1 - distance, clamp to [-1, 1], then
map to [0, 1]. -/
def pgvectorFormula (q : ℚ) : ℚ :=
  (max (-1) (min 1 (1 - 1 / q)) + 1) / 2

/-- `correct_pgvector_score` (src/api/public_api.py). "N/A" and None pass
through; a ValueError from `float()` is caught and the argument passes
through; a TypeError from `float()` is not caught by
`except (ValueError, ZeroDivisionError)` and propagates; `float("inf")`
returns 1.0; any value ≤ 0 returns 0.0; a positive finite value q returns
`(clamp(1 - 1/q, -1, 1) + 1) / 2`. -/
def correct_pgvector_score : PyScoreIn → PyScoreOut
  | .na => .pass .na
  | .noneV => .pass .noneV
  | .inf => .val 1
  | .ninf => .val 0
  | .num q => if q ≤ 0 then .val 0 else .val (pgvectorFormula q)
  | .numStr q => if q ≤ 0 then .val 0 else .val (pgvectorFormula q)
  | .badStr => .pass .badStr
  | .nonNumeric => .typeError

/-- A JSON value; object fields are listed in Python dict insertion order. -/
inductive Json where
  | obj (fields : List (String × Json))
  | arr (elems : List Json)
  | str (s : String)
  | intVal (n : Int)
  | boolVal (b : Bool)
  | null

/-- A value stored in an extractor metadata mapping. -/
inductive MetaVal where
  | s (v : String)
  | n (v : Int)
  | keys (v : List String)
  | jv (v : Json)

/-- The seven well-known field names `JSONProcessor.extract_metadata` copies
from a root object, in the source's order. -/
def wellKnownFields : List String :=
  ["title", "name", "description", "summary", "version", "date", "author"]

/-- Copy each well-known field present in the root object, iterating the
fixed field-name list as the source does. -/
def wellKnownMeta (fields : List (String × Json)) : List (String × MetaVal) :=
  wellKnownFields.filterMap fun k =>
    match fields.lookup k with
    | some v => some (k, MetaVal.jv v)
    | none => none

/-- `JSONProcessor.extract_metadata`; the argument is the parsed file, with
`none` modelling the exception path (open or `json.load` failed), where the
source returns an empty dict. -/
def json_extract_metadata : Option Json → List (String × MetaVal)
  | Option.none => []
  | some d =>
    let base := [("file_extension", MetaVal.s ".json"),
                 ("processing_method", MetaVal.s "json_parser"),
                 ("processor", MetaVal.s "JSONProcessor")]
    match d with
    | .obj fields =>
        base ++ [("json_keys", MetaVal.keys (fields.map Prod.fst)),
                 ("json_structure", MetaVal.s "object")] ++ wellKnownMeta fields
    | .arr elems =>
        base ++ [("json_structure", MetaVal.s "array"),
                 ("json_array_length", MetaVal.n elems.length)]
    | _ => base

/-- The optional document-information fields pypdf exposes. Following Python
truthiness, an empty string behaves like an absent field. -/
structure PdfInfo where
  title : Option String
  author : Option String
  subject : Option String
  creator : Option String
  producer : Option String
  creation_date : Option String
  modification_date : Option String

/-- A successfully opened PDF: its document-information dictionary (absent
or falsy models `if pdf_reader.metadata:` failing) and its page count. -/
structure PdfDoc where
  meta : Option PdfInfo
  page_count : Nat

/-- Python truthiness of an optional string. -/
def truthyOpt : Option String → Bool
  | Option.none => false
  | some s => s != ""

/-- One optional metadata entry, emitted only when the field is truthy. -/
def optField (name : String) (v : Option String) : List (String × MetaVal) :=
  if truthyOpt v then [(name, MetaVal.s (v.getD ""))] else []

/-- `PDFProcessor._basic_metadata`. -/
def pdf_basic_metadata : List (String × MetaVal) :=
  [("file_extension", MetaVal.s ".pdf"),
   ("processing_method", MetaVal.s "basic"),
   ("processor", MetaVal.s "PDFProcessor")]

/-- `PDFProcessor.extract_metadata`; the argument is the opened PDF, with
`none` modelling both the pypdf-missing path and the exception path, where
the source falls back to `_basic_metadata`. -/
def pdf_extract_metadata : Option PdfDoc → List (String × MetaVal)
  | Option.none => pdf_basic_metadata
  | some d =>
    [("file_extension", MetaVal.s ".pdf"),
     ("processing_method", MetaVal.s "pypdf"),
     ("processor", MetaVal.s "PDFProcessor")] ++
    (match d.meta with
     | Option.none => []
     | some m =>
        optField "title" m.title ++ optField "author" m.author ++
        optField "subject" m.subject ++ optField "creator" m.creator ++
        optField "producer" m.producer ++ optField "creation_date" m.creation_date ++
        optField "modification_date" m.modification_date) ++
    [("page_count", MetaVal.n d.page_count)]

/-- The mapping contains the key. -/
def hasKey (k : String) (m : List (String × MetaVal)) : Bool :=
  (m.lookup k).isSome

/-- The string contains ".." as a substring. -/
def hasDotDot : List Char → Bool
  | [] => false
  | '.' :: '.' :: _ => true
  | _ :: rest => hasDotDot rest

/-- The file-system facts `_is_safe_path` and `process_document` consult
about the path: whether `exists()` and `is_file()` hold (false also covers
an OSError or ValueError from those calls, which the source catches and
turns into a rejection), and the `stat()` size. -/
structure FileMeta where
  exists_ok : Bool
  is_file : Bool
  size : Nat

/-- `DocumentProcessorManager._is_safe_path`: reject any path whose string
contains "..", then require an existing regular file. `pathlib.Path`
normalization only drops "." components and duplicate slashes, so it neither
creates nor removes an occurrence of ".."; the check is therefore modelled
on the given path string. -/
def is_safe_path (path : List Char) (fm : FileMeta) : Bool :=
  if hasDotDot path then false
  else fm.exists_ok && fm.is_file

/-- The environment one `process_document` call runs in: the file-system
facts about the path, and the behaviour of the selected extractor or of the
plain-text fallback read. Extractors and the file system are external
effects, so their results are inputs of the model. -/
structure ProcEnv where
  meta : FileMeta
  max_file_size : Nat
  has_processor : Bool
  extracted_text : String
  extracted_meta : List (String × MetaVal)
  fallback_ok : Bool
  fallback_text : String
  fallback_meta : List (String × MetaVal)

/-- `DocumentProcessorManager.process_document`: the returned triple
`(text, metadata, success)`, paired with whether an extractor was invoked. -/
def process_document (path : List Char) (env : ProcEnv) :
    (String × List (String × MetaVal) × Bool) × Bool :=
  if !is_safe_path path env.meta then
    (("", [], false), false)
  else if env.max_file_size < env.meta.size then
    (("", [], false), false)
  else if env.has_processor then
    if stripL env.extracted_text.data = [] then
      (("", [], false), true)
    else
      ((env.extracted_text, env.extracted_meta, true), true)
  else if env.fallback_ok then
    if stripL env.fallback_text.data = [] then
      (("", [], false), false)
    else
      ((env.fallback_text, env.fallback_meta, true), false)
  else
    (("", [], false), false)

/-- What processing one uploaded file comes to in the `/ingest` handler:
`process_document` returned text with success, returned failure, or raised. -/
inductive DocOutcome where
  | extracted (text : String)
  | extractFailed
  | procError (msg : String)

/-- One uploaded file: its name, the size reported by the upload (possibly
absent), and how processing it turns out. -/
structure UploadDoc where
  filename : String
  size : Option Nat
  outcome : DocOutcome

/-- The running statistics of one `/ingest` call, together with the chunk
batches handed to `client.vector_io.insert` in order. -/
structure IngestStats where
  processed_files : Nat
  failed_files : Nat
  errors : List String
  inserted : List (String × List (List Char))

/-- The oversize check `if file.size and file.size > max_size`: Python
truthiness skips the check for an absent size (a zero size is also falsy,
but a zero size cannot exceed the bound anyway). -/
def sizeExceeds (maxSize : Nat) : Option Nat → Bool
  | Option.none => false
  | some s => decide (maxSize < s)

/-- Whether one uploaded file is counted as processed: within the size
bound, extraction succeeded, and `text.strip()` is non-empty. -/
def docOk (maxSize : Nat) (f : UploadDoc) : Bool :=
  !sizeExceeds maxSize f.size &&
    match f.outcome with
    | .extracted t => !(stripL t.data).isEmpty
    | _ => false

/-- The text of a successfully extracted file. -/
def docText : UploadDoc → String
  | ⟨_, _, .extracted t⟩ => t
  | _ => ""

/-- The error message recorded for one failed file, following the source's
message formats and its order of checks. -/
def docErrorMsg (maxSize : Nat) (f : UploadDoc) : String :=
  if sizeExceeds maxSize f.size then
    "File " ++ f.filename ++ " exceeds maximum size (" ++ toString maxSize ++ " bytes)"
  else
    match f.outcome with
    | .procError m => "Processing error for " ++ f.filename ++ ": " ++ m
    | _ => "Failed to extract text from " ++ f.filename

/-- The per-file loop of the `/ingest` handler (src/api/admin_api.py): files
are processed in order; a failure only increments `failed_files` and appends
one error message; a success chunks the text with `chunk_text` and hands one
batch to the vector store. -/
def ingest (maxSize cs ov : Nat) : List UploadDoc → IngestStats
  | [] => ⟨0, 0, [], []⟩
  | f :: rest =>
    let st := ingest maxSize cs ov rest
    if docOk maxSize f then
      ⟨st.processed_files + 1, st.failed_files, st.errors,
       (f.filename, chunk_text (docText f).data cs ov) :: st.inserted⟩
    else
      ⟨st.processed_files, st.failed_files + 1,
       docErrorMsg maxSize f :: st.errors, st.inserted⟩

/-! ### Structural predicates on character lists

The chunker's correctness arguments all rest on one shape invariant: after
`normalizeWs`, the text is a single-space join of non-empty whitespace-free
words, and every intermediate chunk buffer keeps (almost) that shape. -/

/-- No character of the piece is whitespace. -/
def noWs (l : List Char) : Prop := ∀ c ∈ l, isWsB c = false

/-- A word in the sense of Python `str.split()`: non-empty, whitespace-free. -/
def WordLike (w : List Char) : Prop := w ≠ [] ∧ noWs w

/-- The first character, if any, is not whitespace. -/
def headOk (l : List Char) : Prop := ∀ c ∈ l.head?, isWsB c = false

/-- The last character, if any, is not whitespace. -/
def lastOk (l : List Char) : Prop := ∀ c ∈ l.getLast?, isWsB c = false

/-- Two adjacent characters are never both whitespace. -/
def NoWsPair (a b : Char) : Prop := isWsB a = false ∨ isWsB b = false

/-- Every whitespace character of the piece is a plain space. -/
def wsIsSpace (l : List Char) : Prop := ∀ c ∈ l, isWsB c = true → c = ' '

/-- An intermediate `current_chunk` buffer: non-empty, whitespace occurs only
as isolated plain spaces, and the buffer ends in a non-whitespace character.
(Its first character may be a space carried in by the overlap seed.) -/
structure Tame (l : List Char) : Prop where
  ne : l ≠ []
  ws_sp : wsIsSpace l
  chain : List.Chain' NoWsPair l
  lst : lastOk l

/-- A fully normalized non-empty piece: `Tame` and additionally starting with
a non-whitespace character, i.e. a single-space join of words. -/
structure Sane (l : List Char) extends Tame l : Prop where
  hd : headOk l

theorem headOk_nil : headOk ([] : List Char) := by
  intro c hc
  simp at hc

theorem headOk_cons {c : Char} {l : List Char} : headOk (c :: l) ↔ isWsB c = false := by
  constructor
  · intro h
    exact h c (by simp)
  · intro h d hd
    simp at hd
    simpa [hd] using h

theorem lastOk_nil : lastOk ([] : List Char) := by
  intro c hc
  simp at hc

theorem lastOk_singleton {c : Char} : lastOk [c] ↔ isWsB c = false := by
  constructor
  · intro h
    exact h c (by simp)
  · intro h d hd
    simp at hd
    simpa [hd] using h

theorem headOk_append {x y : List Char} (hx : x ≠ []) : headOk (x ++ y) ↔ headOk x := by
  unfold headOk
  rw [List.head?_append_of_ne_nil _ hx]

theorem lastOk_append {x y : List Char} (hy : y ≠ []) : lastOk (x ++ y) ↔ lastOk y := by
  unfold lastOk
  rw [List.getLast?_append_of_ne_nil _ hy]

theorem lastOk_cons {c : Char} {l : List Char} (hl : l ≠ []) : lastOk (c :: l) ↔ lastOk l := by
  have : c :: l = [c] ++ l := rfl
  rw [this, lastOk_append hl]

theorem noWs_headOk {l : List Char} (h : noWs l) : headOk l := by
  intro c hc
  exact h c (by cases l <;> simp_all)

theorem noWs_lastOk {l : List Char} (h : noWs l) : lastOk l := by
  intro c hc
  exact h c (List.mem_of_getLast?_eq_some hc)

theorem noWs_chain {l : List Char} (h : noWs l) : List.Chain' NoWsPair l := by
  induction l with
  | nil => exact List.chain'_nil
  | cons c t ih =>
    rw [List.chain'_cons']
    refine ⟨fun y _ => Or.inl (h c (by simp)), ih ?_⟩
    intro d hd
    exact h d (by simp [hd])

theorem wordLike_sane {w : List Char} (h : WordLike w) : Sane w := by
  obtain ⟨hne, hw⟩ := h
  refine ⟨⟨hne, ?_, noWs_chain hw, noWs_lastOk hw⟩, noWs_headOk hw⟩
  intro c hc hws
  exact absurd (hw c hc) (by simp [hws])

theorem tame_append {a b : List Char} (ha : Tame a) (hb : Sane b) :
    Tame (a ++ ' ' :: b) := by
  refine ⟨by simp, ?_, ?_, ?_⟩
  · intro c hc hws
    rcases List.mem_append.1 hc with h | h
    · exact ha.ws_sp c h hws
    · rcases List.mem_cons.1 h with h | h
      · exact h
      · exact hb.ws_sp c h hws
  · refine List.Chain'.append ha.chain ?_ ?_
    · rw [List.chain'_cons']
      exact ⟨fun y hy => Or.inr (hb.hd y hy), hb.chain⟩
    · intro x hx y hy
      exact Or.inl (ha.lst x hx)
  · rw [lastOk_append (by simp), lastOk_cons hb.ne]
    exact hb.lst

theorem sane_append {a b : List Char} (ha : Sane a) (hb : Sane b) :
    Sane (a ++ ' ' :: b) := by
  refine ⟨tame_append ha.toTame hb, ?_⟩
  rw [headOk_append ha.ne]
  exact ha.hd

/-! ### Words: properties of `wordsOf`, `joinSp`, `stripL` -/

theorem noWs_nil : noWs ([] : List Char) := by
  intro c hc
  simp at hc

theorem noWs_reverse {l : List Char} : noWs l.reverse ↔ noWs l := by
  unfold noWs
  simp

theorem isWsB_space : isWsB ' ' = true := by decide

theorem wordsAux_wordLike :
    ∀ (l acc : List Char), noWs acc → ∀ w ∈ wordsAux l acc, WordLike w := by
  intro l
  induction l with
  | nil =>
    intro acc hacc w hw
    unfold wordsAux at hw
    by_cases h : acc.isEmpty
    · simp [h] at hw
    · rw [if_neg h] at hw
      rcases List.mem_singleton.1 hw with rfl
      exact ⟨by simpa using h, noWs_reverse.2 hacc⟩
  | cons c rest ih =>
    intro acc hacc w hw
    unfold wordsAux at hw
    by_cases hws : isWsB c = true
    · rw [if_pos hws] at hw
      by_cases he : acc.isEmpty
      · rw [if_pos he] at hw
        exact ih [] noWs_nil w hw
      · rw [if_neg he] at hw
        rcases List.mem_cons.1 hw with h | h
        · subst h
          exact ⟨by simpa using he, noWs_reverse.2 hacc⟩
        · exact ih [] noWs_nil w h
    · rw [if_neg hws] at hw
      refine ih (c :: acc) ?_ w hw
      intro d hd
      rcases List.mem_cons.1 hd with h | h
      · subst h
        simpa using hws
      · exact hacc d h

theorem wordsOf_wordLike (l : List Char) : ∀ w ∈ wordsOf l, WordLike w :=
  wordsAux_wordLike l [] noWs_nil

theorem wordsAux_word (w : List Char) :
    ∀ rest acc, noWs w → wordsAux (w ++ rest) acc = wordsAux rest (w.reverse ++ acc) := by
  induction w with
  | nil =>
    intro rest acc _
    simp
  | cons c t ih =>
    intro rest acc hw
    have hc : isWsB c = false := hw c (by simp)
    have h1 : wordsAux ((c :: t) ++ rest) acc = wordsAux (t ++ rest) (c :: acc) := by
      show wordsAux (c :: (t ++ rest)) acc = _
      rw [wordsAux, if_neg (by simp [hc])]
    rw [h1, ih rest (c :: acc) (fun d hd => hw d (by simp [hd]))]
    have h2 : t.reverse ++ c :: acc = (c :: t).reverse ++ acc := by simp
    rw [h2]

theorem wordsAux_space (rest acc : List Char) (h : acc ≠ []) :
    wordsAux (' ' :: rest) acc = acc.reverse :: wordsAux rest [] := by
  rw [wordsAux, if_pos isWsB_space, if_neg (by cases acc with
    | nil => exact absurd rfl h
    | cons x xs => simp)]

theorem wordsOf_join (ws : List (List Char)) (h : ∀ w ∈ ws, WordLike w) :
    wordsOf (joinSp ws) = ws := by
  induction ws with
  | nil => rfl
  | cons w rest ih =>
    obtain ⟨hne, hnw⟩ := h w (by simp)
    cases rest with
    | nil =>
      show wordsOf w = [w]
      unfold wordsOf
      have hs := wordsAux_word w [] [] hnw
      rw [List.append_nil] at hs
      rw [hs]
      unfold wordsAux
      rw [if_neg (by simpa using hne)]
      simp
    | cons v rest' =>
      show wordsOf (w ++ ' ' :: joinSp (v :: rest')) = w :: v :: rest'
      unfold wordsOf
      rw [wordsAux_word w _ [] hnw, List.append_nil,
        wordsAux_space _ _ (by simpa using hne)]
      rw [List.reverse_reverse]
      have := ih (fun u hu => h u (by simp [hu]))
      unfold wordsOf at this
      rw [this]

theorem joinSp_cons {w v : List Char} {rest : List (List Char)} :
    joinSp (w :: v :: rest) = w ++ ' ' :: joinSp (v :: rest) := rfl

theorem joinSp_sane (ws : List (List Char)) (hne : ws ≠ [])
    (h : ∀ w ∈ ws, WordLike w) : Sane (joinSp ws) := by
  induction ws with
  | nil => exact absurd rfl hne
  | cons w rest ih =>
    cases rest with
    | nil => exact wordLike_sane (h w (by simp))
    | cons v rest' =>
      rw [joinSp_cons]
      exact sane_append (wordLike_sane (h w (by simp)))
        (ih (by simp) (fun u hu => h u (by simp [hu])))

theorem sane_split {l : List Char} (hs : Sane l) (hex : ¬ noWs l) :
    ∃ w rest, l = w ++ ' ' :: rest ∧ WordLike w ∧ Sane rest ∧ rest.length < l.length := by
  set p : Char → Bool := fun c => !isWsB c with hp
  set w := l.takeWhile p with hw
  set d := l.dropWhile p with hd
  have hsplit : w ++ d = l := List.takeWhile_append_dropWhile p l
  have hdne : d ≠ [] := by
    intro hnil
    refine hex ?_
    intro c hc
    have := (List.dropWhile_eq_nil_iff.1 hnil) c hc
    simpa [hp] using this
  have hnww : noWs w := by
    intro c hc
    have := List.mem_takeWhile_imp hc
    simpa [hp] using this
  cases hdd : d with
  | nil => exact absurd hdd hdne
  | cons c rest =>
    have hcws : isWsB c = true := by
      have hh := List.head?_dropWhile_not p l
      rw [← hd, hdd] at hh
      simpa [hp] using hh
    have hcmem : c ∈ l := by
      rw [← hsplit, hdd]
      simp
    have hcsp : c = ' ' := hs.ws_sp c hcmem hcws
    have hwne : w ≠ [] := by
      intro hnil
      have : l = c :: rest := by rw [← hsplit, hdd, hnil]; rfl
      have := hs.hd c (by rw [this]; rfl)
      rw [this] at hcws
      simp at hcws
    have hrne : rest ≠ [] := by
      intro hnil
      have hl : l = w ++ [c] := by rw [← hsplit, hdd, hnil]
      have := hs.lst c (by rw [hl]; simp [List.getLast?_append_of_ne_nil])
      rw [this] at hcws
      simp at hcws
    have hldec : l = w ++ ' ' :: rest := by
      rw [← hsplit, hdd, hcsp]
    have hchain_d : List.Chain' NoWsPair (c :: rest) := by
      refine hs.chain.suffix ?_
      rw [← hdd, hd]
      exact List.dropWhile_suffix p
    refine ⟨w, rest, hldec, ⟨hwne, hnww⟩, ⟨⟨hrne, ?_, ?_, ?_⟩, ?_⟩, ?_⟩
    · intro x hx hxw
      exact hs.ws_sp x (by rw [hldec]; simp [hx]) hxw
    · exact hchain_d.tail
    · intro x hx
      refine hs.lst x ?_
      rw [hldec, List.getLast?_append_of_ne_nil _ (List.cons_ne_nil _ _)]
      cases rest with
      | nil => exact absurd rfl hrne
      | cons y ys =>
        rw [List.getLast?_cons_cons]
        exact hx
    · rw [List.chain'_cons'] at hchain_d
      intro x hx
      rcases (hchain_d.1 x hx) with h | h
      · rw [hcws] at h
        simp at h
      · exact h
    · rw [hldec]
      simp only [List.length_append, List.length_cons]
      omega

theorem sane_words_join {l : List Char} (hs : Sane l) : joinSp (wordsOf l) = l := by
  by_cases hnw : noWs l
  · have hs1 := wordsAux_word l [] [] hnw
    rw [List.append_nil] at hs1
    unfold wordsOf
    rw [hs1]
    unfold wordsAux
    rw [if_neg (by simpa using hs.ne)]
    simp [joinSp]
  · -- split off the first word at the first space
    have key : ∀ n (l : List Char), l.length ≤ n → Sane l → joinSp (wordsOf l) = l := by
      intro n
      induction n with
      | zero =>
        intro l hl hsl
        exact absurd (List.eq_nil_of_length_eq_zero (Nat.le_zero.1 hl)) hsl.ne
      | succ n ihn =>
        intro l hl hsl
        by_cases hnwl : noWs l
        · have hs1 := wordsAux_word l [] [] hnwl
          rw [List.append_nil] at hs1
          unfold wordsOf
          rw [hs1]
          unfold wordsAux
          rw [if_neg (by simpa using hsl.ne)]
          simp [joinSp]
        · obtain ⟨w, rest, hdec, hwl, hrest, hlen⟩ := sane_split hsl hnwl
          have hrec := ihn rest (by omega) hrest
          have hwords : wordsOf (w ++ ' ' :: rest) = w :: wordsOf rest := by
            unfold wordsOf
            rw [wordsAux_word w _ [] hwl.2, List.append_nil,
              wordsAux_space _ _ (by simpa using hwl.1), List.reverse_reverse]
          have hwne : wordsOf rest ≠ [] := by
            intro hnil
            rw [hnil] at hrec
            exact hrest.ne (by simpa [joinSp] using hrec.symm)
          rw [hdec, hwords]
          cases hcase : wordsOf rest with
          | nil => exact absurd hcase hwne
          | cons u us =>
            rw [joinSp_cons, ← hcase, hrec]
    exact key l.length l le_rfl hs

/-! ### Properties of `stripL` on tame buffers -/

theorem headOk_reverse {l : List Char} : headOk l.reverse ↔ lastOk l := by
  unfold headOk lastOk
  simp

theorem dropWhile_of_headOk {l : List Char} (h : headOk l) : l.dropWhile isWsB = l := by
  cases l with
  | nil => rfl
  | cons c t =>
    rw [List.dropWhile_cons, if_neg]
    rw [headOk_cons] at h
    simp [h]

theorem sane_stripL {l : List Char} (h : Sane l) : stripL l = l := by
  unfold stripL
  rw [dropWhile_of_headOk h.hd, dropWhile_of_headOk (headOk_reverse.2 h.lst),
    List.reverse_reverse]

theorem tame_head_cases {l : List Char} (h : Tame l) :
    headOk l ∨ ∃ rest, l = ' ' :: rest ∧ Sane rest := by
  cases hl : l with
  | nil => exact absurd hl h.ne
  | cons c t =>
    subst hl
    by_cases hc : isWsB c = true
    · right
      have hcsp : c = ' ' := h.ws_sp c (by simp) hc
      cases ht : t with
      | nil =>
        subst ht
        have := h.lst c (by simp)
        rw [this] at hc
        simp at hc
      | cons y ys =>
        subst ht
        have hchain := h.chain
        rw [List.chain'_cons] at hchain
        have hy : isWsB y = false := by
          rcases hchain.1 with hcase | hcase
          · rw [hcase] at hc; simp at hc
          · exact hcase
        refine ⟨y :: ys, by rw [hcsp], ⟨⟨by simp, ?_, hchain.2, ?_⟩, headOk_cons.2 hy⟩⟩
        · intro x hx hxw
          exact h.ws_sp x (by simp [hx]) hxw
        · have := h.lst
          rwa [lastOk_cons (by simp)] at this
    · left
      exact headOk_cons.2 (by simpa using hc)

theorem tame_stripL {l : List Char} (h : Tame l) :
    stripL l = l.dropWhile isWsB ∧ Sane (stripL l) ∧ l.length ≤ (stripL l).length + 1 := by
  rcases tame_head_cases h with hh | ⟨rest, rfl, hrest⟩
  · have hs : Sane l := ⟨h, hh⟩
    rw [sane_stripL hs, dropWhile_of_headOk hh]
    exact ⟨rfl, hs, by omega⟩
  · have hdw : (' ' :: rest).dropWhile isWsB = rest := by
      rw [List.dropWhile_cons, if_pos isWsB_space, dropWhile_of_headOk hrest.hd]
    have hstrip : stripL (' ' :: rest) = rest := by
      unfold stripL
      rw [hdw, dropWhile_of_headOk (headOk_reverse.2 hrest.lst), List.reverse_reverse]
    rw [hstrip, hdw]
    exact ⟨rfl, hrest, by simp⟩

theorem stripL_append {a b : List Char} (ha : Tame a) (hb : Sane b) :
    stripL (a ++ ' ' :: b) = stripL a ++ ' ' :: b := by
  obtain ⟨h1, _, _⟩ := tame_stripL (tame_append ha hb)
  obtain ⟨g1, g2, _⟩ := tame_stripL ha
  have hne : ¬ ((a.dropWhile isWsB).isEmpty = true) := by
    rw [← g1]
    cases hc : stripL a with
    | nil => exact absurd hc g2.ne
    | cons x xs => simp
  rw [h1, List.dropWhile_append, if_neg hne, ← g1]

/-! ### Properties of the sentence split on normalized text -/

/-- The invariant a sentence piece keeps: whitespace occurs only as isolated
plain spaces and the piece does not end in whitespace. -/
def MidP (l : List Char) : Prop :=
  wsIsSpace l ∧ List.Chain' NoWsPair l ∧ lastOk l

theorem punct_not_ws {c : Char} (h : isPunctB c = true) : isWsB c = false := by
  unfold isPunctB at h
  simp only [Bool.or_eq_true, beq_iff_eq] at h
  rcases h with (h | h) | h <;> subst h <;> decide

theorem splitSentM_false_cons (c : Char) (rest : List Char) :
    splitSentM false (c :: rest) =
      if isPunctB c && headWsB rest then [c] :: splitSentM true rest
      else
        match splitSentM false rest with
        | [] => [[c]]
        | p :: ps => (c :: p) :: ps := by
  rw [splitSentM]
  simp

theorem splitSentM_true_cons_ws {c : Char} (rest : List Char) (h : isWsB c = true) :
    splitSentM true (c :: rest) = splitSentM true rest := by
  rw [splitSentM]
  simp [h]

theorem splitSentM_true_headOk {l : List Char} (h : headOk l) :
    splitSentM true l = splitSentM false l := by
  cases l with
  | nil => rfl
  | cons c rest =>
    rw [headOk_cons] at h
    rw [splitSentM, splitSentM]
    simp [h]

theorem midP_nil : MidP ([] : List Char) := by
  refine ⟨?_, List.chain'_nil, lastOk_nil⟩
  intro x hx
  simp at hx

theorem splitSent_main :
    ∀ n (l : List Char), l.length ≤ n → MidP l →
      ∃ p ps, splitSentM false l = p :: ps ∧ p.head? = l.head? ∧
        joinSp (p :: ps) = l ∧ MidP p ∧
        ∀ q ∈ ps, MidP q ∧ q ≠ [] ∧ headOk q := by
  intro n
  induction n with
  | zero =>
    intro l hl _
    have hnil : l = [] := List.eq_nil_of_length_eq_zero (Nat.le_zero.1 hl)
    subst hnil
    exact ⟨[], [], rfl, rfl, rfl, midP_nil, by simp⟩
  | succ n ihn =>
    intro l hl hmid
    obtain ⟨hws, hchain, hlst⟩ := hmid
    cases l with
    | nil => exact ⟨[], [], rfl, rfl, rfl, midP_nil, by simp⟩
    | cons c rest =>
      rw [splitSentM_false_cons]
      by_cases hb : isPunctB c = true ∧ headWsB rest = true
      · -- a sentence boundary after c
        rw [if_pos (by simp [hb.1, hb.2])]
        have hcnw : isWsB c = false := punct_not_ws hb.1
        cases hr : rest with
        | nil =>
          rw [hr] at hb
          simp [headWsB] at hb
        | cons w rest2 =>
          subst hr
          have hwws : isWsB w = true := by simpa [headWsB] using hb.2
          have hwsp : w = ' ' := hws w (by simp) hwws
          cases hr2 : rest2 with
          | nil =>
            subst hr2
            have hlw := hlst w (by simp)
            rw [hlw] at hwws
            simp at hwws
          | cons y ys =>
            subst hr2
            have hy : isWsB y = false := by
              have h2 := (List.chain'_cons.1 hchain).2
              rcases (List.chain'_cons.1 h2).1 with hcase | hcase
              · rw [hcase] at hwws
                simp at hwws
              · exact hcase
            have hmid2 : MidP (y :: ys) := by
              refine ⟨?_, (List.chain'_cons.1 (List.chain'_cons.1 hchain).2).2, ?_⟩
              · intro x hx hxw
                exact hws x (by simp [hx]) hxw
              · have h1 := hlst
                rw [lastOk_cons (by simp)] at h1
                rwa [lastOk_cons (by simp)] at h1
            obtain ⟨p, ps, heq, hhd, hjoin, hp, hps⟩ :=
              ihn (y :: ys) (by simp at hl ⊢; omega) hmid2
            have hskip : splitSentM true (w :: y :: ys) = p :: ps := by
              rw [splitSentM_true_cons_ws _ hwws,
                splitSentM_true_headOk (headOk_cons.2 hy), heq]
            refine ⟨[c], p :: ps, by rw [hskip], by simp, ?_, ?_, ?_⟩
            · rw [joinSp_cons, hjoin, hwsp]
              rfl
            · refine ⟨?_, List.chain'_singleton c, lastOk_singleton.2 hcnw⟩
              intro x hx hxw
              simp at hx
              rw [hx] at hxw
              rw [hcnw] at hxw
              simp at hxw
            · intro q hq
              rcases List.mem_cons.1 hq with hq | hq
              · subst hq
                refine ⟨hp, ?_, ?_⟩
                · intro hnil
                  rw [hnil] at hhd
                  simp at hhd
                · intro x hx
                  rw [hhd] at hx
                  simp at hx
                  exact hx ▸ hy
              · exact hps q hq
      · -- no boundary after c
        rw [if_neg (by
          intro hcond
          rcases Bool.and_eq_true_iff.1 hcond with ⟨h1, h2⟩
          exact hb ⟨h1, h2⟩)]
        have hmidr : MidP rest := by
          refine ⟨?_, hchain.tail, ?_⟩
          · intro x hx hxw
            exact hws x (by simp [hx]) hxw
          · cases hr : rest with
            | nil => exact lastOk_nil
            | cons z zs =>
              have h1 := hlst
              rw [hr] at h1
              rwa [lastOk_cons (by simp)] at h1
        obtain ⟨p, ps, heq, hhd, hjoin, hp, hps⟩ :=
          ihn rest (by simp at hl ⊢; omega) hmidr
        rw [heq]
        refine ⟨c :: p, ps, rfl, by simp, ?_, ?_, hps⟩
        · cases hcp : ps with
          | nil =>
            subst hcp
            simp only [joinSp] at hjoin ⊢
            rw [hjoin]
          | cons q qs =>
            subst hcp
            rw [joinSp_cons]
            rw [joinSp_cons] at hjoin
            rw [List.cons_append, hjoin]
        · refine ⟨?_, ?_, ?_⟩
          · intro x hx hxw
            rcases List.mem_cons.1 hx with hx | hx
            · subst hx
              exact hws x (by simp) hxw
            · exact hp.1 x hx hxw
          · rw [List.chain'_cons']
            refine ⟨?_, hp.2.1⟩
            intro y hy
            rw [hhd] at hy
            exact (List.chain'_cons'.1 hchain).1 y hy
          · cases hpc : p with
            | nil =>
              subst hpc
              have hrnil : rest = [] := by
                cases rest with
                | nil => rfl
                | cons z zs => simp at hhd
              subst hrnil
              rw [lastOk_singleton]
              exact hlst c (by simp)
            | cons u us =>
              subst hpc
              rw [lastOk_cons (by simp)]
              exact hp.2.2

theorem splitSent_sane {t : List Char} (h : Sane t) :
    joinSp (splitSent t) = t ∧ ∀ p ∈ splitSent t, Sane p := by
  obtain ⟨p, ps, heq, hhd, hjoin, hp, hps⟩ :=
    splitSent_main t.length t le_rfl ⟨h.ws_sp, h.chain, h.lst⟩
  unfold splitSent
  rw [heq]
  refine ⟨hjoin, ?_⟩
  intro q hq
  rcases List.mem_cons.1 hq with hq | hq
  · subst hq
    have hqne : q ≠ [] := by
      intro hnil
      rw [hnil] at hhd
      cases hc : t with
      | nil => exact h.ne hc
      | cons z zs =>
        rw [hc] at hhd
        simp at hhd
    refine ⟨⟨hqne, hp.1, hp.2.1, hp.2.2⟩, ?_⟩
    intro x hx
    rw [hhd] at hx
    exact h.hd x hx
  · obtain ⟨hmq, hqne, hqhd⟩ := hps q hq
    exact ⟨⟨hqne, hmq.1, hmq.2.1, hmq.2.2⟩, hqhd⟩

/-! ### Small algebra of `joinSp`, `blen` and emptiness tests -/

/-- Sum over chunks of length plus one: the length of their single-space
join, plus one, when the list is non-empty. -/
def blen (L : List (List Char)) : Nat :=
  (L.map (fun c => c.length + 1)).sum

theorem joinSp_cons_ne {Y : List Char} {X : List (List Char)} (h : X ≠ []) :
    joinSp (Y :: X) = Y ++ ' ' :: joinSp X := by
  cases X with
  | nil => exact absurd rfl h
  | cons x xs => rfl

theorem joinSp_merge {a b : List Char} {rest : List (List Char)} :
    joinSp ((a ++ ' ' :: b) :: rest) = joinSp (a :: b :: rest) := by
  cases rest with
  | nil =>
    show a ++ ' ' :: b = joinSp (a :: b :: [])
    rw [joinSp_cons]
    rfl
  | cons r rs =>
    rw [joinSp_cons, joinSp_cons, joinSp_cons]
    rw [List.append_assoc]
    rfl

theorem joinSp_append {G R : List (List Char)} (hG : G ≠ []) (hR : R ≠ []) :
    joinSp (G ++ R) = joinSp G ++ ' ' :: joinSp R := by
  induction G with
  | nil => exact absurd rfl hG
  | cons g G' ih =>
    cases G' with
    | nil =>
      show joinSp (g :: R) = g ++ ' ' :: joinSp R
      exact joinSp_cons_ne hR
    | cons g2 G'' =>
      have h1 : (g :: g2 :: G'') ++ R = g :: ((g2 :: G'') ++ R) := rfl
      rw [h1, joinSp_cons_ne (by simp), ih (by simp), joinSp_cons]
      rw [List.append_assoc]
      rfl

theorem blen_join {ws : List (List Char)} (h : ws ≠ []) :
    (joinSp ws).length + 1 = blen ws := by
  induction ws with
  | nil => exact absurd rfl h
  | cons w rest ih =>
    cases rest with
    | nil => simp [joinSp, blen]
    | cons v rest' =>
      have ih' := ih (by simp)
      rw [joinSp_cons]
      unfold blen at ih' ⊢
      simp only [List.map_cons, List.sum_cons] at ih' ⊢
      rw [List.length_append, List.length_cons]
      omega

theorem blen_append (A B : List (List Char)) : blen (A ++ B) = blen A + blen B := by
  unfold blen
  rw [List.map_append, List.sum_append]

theorem stripL_eq_nil_iff {l : List Char} : stripL l = [] ↔ ∀ c ∈ l, isWsB c = true := by
  constructor
  · intro hnil
    by_contra hex
    push_neg at hex
    have hdne : l.dropWhile isWsB ≠ [] := by
      intro h0
      obtain ⟨c, hc, hcw⟩ := hex
      exact hcw (List.dropWhile_eq_nil_iff.1 h0 c hc)
    cases hd : l.dropWhile isWsB with
    | nil => exact hdne hd
    | cons x xs =>
      have hx : isWsB x = false := by
        have hh := List.head?_dropWhile_not isWsB l
        rw [hd] at hh
        simpa using hh
      have h2 : (x :: xs).reverse.dropWhile isWsB ≠ [] := by
        intro h0
        have := List.dropWhile_eq_nil_iff.1 h0 x (by simp)
        rw [hx] at this
        simp at this
      unfold stripL at hnil
      rw [hd] at hnil
      exact h2 (by simpa using hnil)
  · intro hall
    unfold stripL
    rw [List.dropWhile_eq_nil_iff.2 hall]
    rfl

theorem wordsAux_ne {l acc : List Char} (h : acc ≠ []) : wordsAux l acc ≠ [] := by
  induction l generalizing acc with
  | nil =>
    rw [wordsAux, if_neg (by simpa using h)]
    simp
  | cons c rest ih =>
    rw [wordsAux]
    by_cases hc : isWsB c = true
    · rw [if_pos hc, if_neg (by simpa using h)]
      simp
    · rw [if_neg hc]
      exact ih (by simp)

theorem wordsOf_eq_nil_iff {l : List Char} : wordsOf l = [] ↔ ∀ c ∈ l, isWsB c = true := by
  induction l with
  | nil => simp [wordsOf, wordsAux]
  | cons c rest ih =>
    unfold wordsOf at ih ⊢
    by_cases hc : isWsB c = true
    · rw [wordsAux, if_pos hc, if_pos (by simp)]
      constructor
      · intro h x hx
        rcases List.mem_cons.1 hx with hx | hx
        · subst hx; exact hc
        · exact ih.1 h x hx
      · intro h
        exact ih.2 (fun x hx => h x (by simp [hx]))
    · rw [wordsAux, if_neg hc]
      constructor
      · intro h
        exact absurd h (wordsAux_ne (by simp))
      · intro h
        exact absurd (h c (by simp)) hc

theorem normalizeWs_sane {l : List Char} (h : wordsOf l ≠ []) : Sane (normalizeWs l) :=
  joinSp_sane (wordsOf l) h (wordsOf_wordLike l)

theorem stripL_ne_words_ne {l : List Char} (h : stripL l ≠ []) : wordsOf l ≠ [] := by
  intro h0
  exact h (stripL_eq_nil_iff.2 (wordsOf_eq_nil_iff.1 h0))

/-! ### Properties of the word-repacking pass -/

theorem packWords_ne {cs : Nat} :
    ∀ {ws : List (List Char)} {sub : List Char}, sub ≠ [] → packWords cs sub ws ≠ [] := by
  intro ws
  induction ws with
  | nil =>
    intro sub h
    rw [packWords, if_pos h]
    simp
  | cons w rest ih =>
    intro sub h
    rw [packWords]
    by_cases hc : sub.length + w.length + 1 ≤ cs
    · rw [if_pos hc]
      refine ih ?_
      rw [if_neg h]
      simp
    · rw [if_neg hc, if_pos h]
      simp

theorem packWords_join {cs : Nat} :
    ∀ (ws : List (List Char)) (sub : List Char), (∀ w ∈ ws, w ≠ []) →
      joinSp (packWords cs sub ws) = joinSp (if sub = [] then ws else sub :: ws) := by
  intro ws
  induction ws with
  | nil =>
    intro sub _
    by_cases h : sub = []
    · subst h
      rfl
    · rw [packWords, if_pos h, if_neg h]
  | cons w rest ih =>
    intro sub hws
    have hwne : w ≠ [] := hws w (by simp)
    have hrest : ∀ u ∈ rest, u ≠ [] := fun u hu => hws u (by simp [hu])
    rw [packWords]
    by_cases hc : sub.length + w.length + 1 ≤ cs
    · rw [if_pos hc]
      by_cases hs : sub = []
      · rw [if_pos hs, ih w hrest, if_neg hwne, if_pos hs]
      · rw [if_neg hs, ih (sub ++ ' ' :: w) hrest, if_neg (by simp), if_neg hs]
        exact joinSp_merge
    · rw [if_neg hc]
      by_cases hs : sub = []
      · rw [if_neg (by simp [hs]), ih w hrest, if_neg hwne, if_pos hs]
      · rw [if_pos hs, joinSp_cons_ne (packWords_ne hwne), ih w hrest, if_neg hwne,
          if_neg hs, joinSp_cons]

theorem packWords_sizes {cs : Nat} :
    ∀ (ws : List (List Char)) (sub : List Char), (∀ w ∈ ws, noWs w) →
      (sub.length ≤ cs ∨ noWs sub) →
      ∀ c ∈ packWords cs sub ws, c.length ≤ cs ∨ noWs c := by
  intro ws
  induction ws with
  | nil =>
    intro sub _ hq c hc
    rw [packWords] at hc
    by_cases h : sub = []
    · rw [if_neg (by simp [h])] at hc
      simp at hc
    · rw [if_pos h] at hc
      rcases List.mem_singleton.1 hc with rfl
      exact hq
  | cons w rest ih =>
    intro sub hws hq c hc
    have hwn : noWs w := hws w (by simp)
    have hrest : ∀ u ∈ rest, noWs u := fun u hu => hws u (by simp [hu])
    rw [packWords] at hc
    by_cases hcond : sub.length + w.length + 1 ≤ cs
    · rw [if_pos hcond] at hc
      refine ih _ hrest ?_ c hc
      by_cases hs : sub = []
      · rw [if_pos hs]
        left
        rw [hs] at hcond
        simp only [List.length_nil] at hcond
        omega
      · rw [if_neg hs]
        left
        rw [List.length_append, List.length_cons]
        omega
    · rw [if_neg hcond] at hc
      by_cases hs : sub = []
      · rw [if_neg (by simp [hs])] at hc
        exact ih w hrest (Or.inr hwn) c hc
      · rw [if_pos hs] at hc
        rcases List.mem_cons.1 hc with hc | hc
        · subst hc
          exact hq
        · exact ih w hrest (Or.inr hwn) c hc

theorem packWords_sane {cs : Nat} :
    ∀ (ws : List (List Char)) (sub : List Char), (∀ w ∈ ws, WordLike w) →
      (sub = [] ∨ Sane sub) → ∀ c ∈ packWords cs sub ws, Sane c := by
  intro ws
  induction ws with
  | nil =>
    intro sub _ hq c hc
    rw [packWords] at hc
    by_cases h : sub = []
    · rw [if_neg (by simp [h])] at hc
      simp at hc
    · rw [if_pos h] at hc
      rcases List.mem_singleton.1 hc with rfl
      rcases hq with hq | hq
      · exact absurd hq h
      · exact hq
  | cons w rest ih =>
    intro sub hws hq c hc
    have hwk : WordLike w := hws w (by simp)
    have hrest : ∀ u ∈ rest, WordLike u := fun u hu => hws u (by simp [hu])
    rw [packWords] at hc
    by_cases hcond : sub.length + w.length + 1 ≤ cs
    · rw [if_pos hcond] at hc
      refine ih _ hrest ?_ c hc
      by_cases hs : sub = []
      · rw [if_pos hs]
        right
        exact wordLike_sane hwk
      · rw [if_neg hs]
        right
        rcases hq with hq | hq
        · exact absurd hq hs
        · exact sane_append hq (wordLike_sane hwk)
    · rw [if_neg hcond] at hc
      by_cases hs : sub = []
      · rw [if_neg (by simp [hs])] at hc
        exact ih w hrest (Or.inr (wordLike_sane hwk)) c hc
      · rw [if_pos hs] at hc
        rcases List.mem_cons.1 hc with hc | hc
        · subst hc
          rcases hq with hq | hq
          · exact absurd hq hs
          · exact hq
        · exact ih w hrest (Or.inr (wordLike_sane hwk)) c hc

theorem packWords_blen {cs : Nat} :
    ∀ (ws : List (List Char)) (sub : List Char), (∀ w ∈ ws, w ≠ []) →
      blen (packWords cs sub ws) = (if sub = [] then 0 else sub.length + 1) + blen ws := by
  intro ws
  induction ws with
  | nil =>
    intro sub _
    rw [packWords]
    by_cases h : sub = []
    · rw [if_neg (by simp [h]), if_pos h]
      simp [blen]
    · rw [if_pos h, if_neg h]
      simp [blen]
  | cons w rest ih =>
    intro sub hws
    have hwne : w ≠ [] := hws w (by simp)
    have hrest : ∀ u ∈ rest, u ≠ [] := fun u hu => hws u (by simp [hu])
    rw [packWords]
    by_cases hcond : sub.length + w.length + 1 ≤ cs
    · rw [if_pos hcond, ih _ hrest]
      by_cases hs : sub = []
      · rw [if_pos hs, if_neg hwne, if_pos hs]
        unfold blen
        simp only [List.map_cons, List.sum_cons]
        omega
      · rw [if_neg hs, if_neg (by simp), if_neg hs]
        unfold blen
        simp only [List.map_cons, List.sum_cons, List.length_append, List.length_cons]
        omega
    · rw [if_neg hcond]
      by_cases hs : sub = []
      · rw [if_neg (by simp [hs]), ih w hrest, if_neg hwne, if_pos hs]
        unfold blen
        simp only [List.map_cons, List.sum_cons]
        omega
      · rw [if_pos hs]
        unfold blen
        simp only [List.map_cons, List.sum_cons]
        have hiw := ih w hrest
        unfold blen at hiw
        rw [hiw, if_neg hwne, if_neg hs]

theorem wordsOf_ne_of_sane {c : List Char} (hc : Sane c) : wordsOf c ≠ [] := by
  intro h0
  have hj := sane_words_join hc
  rw [h0] at hj
  exact hc.ne hj.symm

theorem packWords_start_ne {cs : Nat} {ws : List (List Char)} (hne : ws ≠ [])
    (hw : ∀ w ∈ ws, w ≠ []) : packWords cs [] ws ≠ [] := by
  cases ws with
  | nil => exact absurd rfl hne
  | cons w rest =>
    rw [packWords]
    by_cases hcond : ([] : List Char).length + w.length + 1 ≤ cs
    · rw [if_pos hcond, if_pos rfl]
      exact packWords_ne (hw w (by simp))
    · rw [if_neg hcond, if_neg (by simp)]
      exact packWords_ne (hw w (by simp))

theorem resplitChunks_ne {cs : Nat} {L : List (List Char)} (hL : ∀ c ∈ L, Sane c)
    (h : L ≠ []) : resplitChunks cs L ≠ [] := by
  cases L with
  | nil => exact absurd rfl h
  | cons c rest =>
    have hc : Sane c := hL c (by simp)
    rw [resplitChunks]
    intro h0
    rcases List.append_eq_nil.1 h0 with ⟨h1, _⟩
    by_cases hlen : c.length ≤ cs
    · rw [if_pos hlen] at h1
      simp at h1
    · rw [if_neg hlen] at h1
      exact packWords_start_ne (wordsOf_ne_of_sane hc)
        (fun w hw => (wordsOf_wordLike c w hw).1) h1

theorem resplit_group_join {cs : Nat} {c : List Char} (hc : Sane c) :
    joinSp (if c.length ≤ cs then [c] else packWords cs [] (wordsOf c)) = c := by
  by_cases hlen : c.length ≤ cs
  · rw [if_pos hlen]
    rfl
  · rw [if_neg hlen,
      packWords_join (wordsOf c) [] (fun w hw => (wordsOf_wordLike c w hw).1), if_pos rfl]
    exact sane_words_join hc

theorem resplit_group_ne {cs : Nat} {c : List Char} (hc : Sane c) :
    (if c.length ≤ cs then [c] else packWords cs [] (wordsOf c)) ≠ [] := by
  by_cases hlen : c.length ≤ cs
  · rw [if_pos hlen]
    simp
  · rw [if_neg hlen]
    exact packWords_start_ne (wordsOf_ne_of_sane hc)
      (fun w hw => (wordsOf_wordLike c w hw).1)

theorem resplitChunks_join {cs : Nat} :
    ∀ L, (∀ c ∈ L, Sane c) → joinSp (resplitChunks cs L) = joinSp L := by
  intro L
  induction L with
  | nil =>
    intro _
    rfl
  | cons c rest ih =>
    intro hL
    have hc : Sane c := hL c (by simp)
    have hrest : ∀ u ∈ rest, Sane u := fun u hu => hL u (by simp [hu])
    rw [resplitChunks]
    by_cases hrnil : rest = []
    · subst hrnil
      show joinSp (_ ++ []) = _
      rw [List.append_nil, resplit_group_join hc]
      rfl
    · have hrne : resplitChunks cs rest ≠ [] := resplitChunks_ne hrest hrnil
      rw [joinSp_append (resplit_group_ne hc) hrne, resplit_group_join hc, ih hrest,
        joinSp_cons_ne hrnil]

theorem resplitChunks_blen {cs : Nat} :
    ∀ L, (∀ c ∈ L, Sane c) → blen (resplitChunks cs L) = blen L := by
  intro L
  induction L with
  | nil =>
    intro _
    rfl
  | cons c rest ih =>
    intro hL
    have hc : Sane c := hL c (by simp)
    have hrest : ∀ u ∈ rest, Sane u := fun u hu => hL u (by simp [hu])
    rw [resplitChunks, blen_append, ih hrest]
    have hgroup : blen (if c.length ≤ cs then [c] else packWords cs [] (wordsOf c)) =
        c.length + 1 := by
      by_cases hlen : c.length ≤ cs
      · rw [if_pos hlen]
        simp [blen]
      · rw [if_neg hlen,
          packWords_blen (wordsOf c) [] (fun w hw => (wordsOf_wordLike c w hw).1),
          if_pos rfl, ← blen_join (wordsOf_ne_of_sane hc), sane_words_join hc]
        omega
    rw [hgroup]
    unfold blen
    simp only [List.map_cons, List.sum_cons]

theorem resplitChunks_sizes {cs : Nat} :
    ∀ L, ∀ x ∈ resplitChunks cs L, x.length ≤ cs ∨ noWs x := by
  intro L
  induction L with
  | nil =>
    intro x hx
    simp [resplitChunks] at hx
  | cons c rest ih =>
    intro x hx
    rw [resplitChunks] at hx
    rcases List.mem_append.1 hx with hx | hx
    · by_cases hlen : c.length ≤ cs
      · rw [if_pos hlen] at hx
        rcases List.mem_singleton.1 hx with rfl
        exact Or.inl hlen
      · rw [if_neg hlen] at hx
        exact packWords_sizes (wordsOf c) []
          (fun w hw => (wordsOf_wordLike c w hw).2)
          (Or.inl (Nat.zero_le cs)) x hx
    · exact ih x hx

theorem resplitChunks_sane {cs : Nat} :
    ∀ L, (∀ c ∈ L, Sane c) → ∀ x ∈ resplitChunks cs L, Sane x := by
  intro L
  induction L with
  | nil =>
    intro _ x hx
    simp [resplitChunks] at hx
  | cons c rest ih =>
    intro hL x hx
    have hc : Sane c := hL c (by simp)
    have hrest : ∀ u ∈ rest, Sane u := fun u hu => hL u (by simp [hu])
    rw [resplitChunks] at hx
    rcases List.mem_append.1 hx with hx | hx
    · by_cases hlen : c.length ≤ cs
      · rw [if_pos hlen] at hx
        rcases List.mem_singleton.1 hx with rfl
        exact hc
      · rw [if_neg hlen] at hx
        exact packWords_sane (wordsOf c) [] (wordsOf_wordLike c) (Or.inl rfl) x hx
    · exact ih hrest x hx

/-! ### Properties of the sentence-accumulation loop -/

theorem lastK_tame {k : Nat} {l : List Char} (hl : Tame l) (h1 : 0 < k)
    (h2 : k < l.length) : Tame (l.drop (l.length - k)) := by
  have hlen : (l.drop (l.length - k)).length = k := by
    rw [List.length_drop]
    omega
  have hne : l.drop (l.length - k) ≠ [] := by
    intro h0
    rw [h0] at hlen
    simp at hlen
    omega
  refine ⟨hne, ?_, hl.chain.drop _, ?_⟩
  · intro c hc hcw
    exact hl.ws_sp c (List.mem_of_mem_drop hc) hcw
  · obtain ⟨pre, hpre⟩ := List.drop_suffix (l.length - k) l
    intro x hx
    refine hl.lst x ?_
    rw [← hpre, List.getLast?_append_of_ne_nil _ hne]
    exact hx

theorem seedBuf_tame {ov : Nat} {cur s : List Char} (hc : Tame cur) (hs : Sane s) :
    Tame (seedBuf ov cur s) := by
  unfold seedBuf
  by_cases h : 0 < ov ∧ ov < cur.length
  · rw [if_pos h]
    exact tame_append (lastK_tame hc h.1 h.2) hs
  · rw [if_neg h]
    exact hs.toTame

theorem sentLoop_ne {cs ov : Nat} :
    ∀ (sents : List (List Char)) (cur : List Char), (∀ s ∈ sents, Sane s) → Tame cur →
      sentLoop cs ov cur sents ≠ [] := by
  intro sents
  induction sents with
  | nil =>
    intro cur _ hcur
    rw [sentLoop, if_pos (tame_stripL hcur).2.1.ne]
    simp
  | cons s rest ih =>
    intro cur hs hcur
    have hss : Sane s := hs s (by simp)
    have hrest : ∀ u ∈ rest, Sane u := fun u hu => hs u (by simp [hu])
    rw [sentLoop]
    by_cases hcond : cur.length + s.length > cs ∧ cur ≠ []
    · rw [if_pos hcond]
      simp
    · rw [if_neg hcond, if_neg hcur.ne]
      exact ih _ hrest (tame_append hcur hss)

theorem sentLoop_sane {cs ov : Nat} :
    ∀ (sents : List (List Char)) (cur : List Char), (∀ s ∈ sents, Sane s) →
      (cur = [] ∨ Tame cur) → ∀ c ∈ sentLoop cs ov cur sents, Sane c := by
  intro sents
  induction sents with
  | nil =>
    intro cur _ hcur c hc
    rw [sentLoop] at hc
    rcases hcur with hcur | hcur
    · subst hcur
      rw [if_neg (by intro h; exact h rfl)] at hc
      simp at hc
    · rw [if_pos (tame_stripL hcur).2.1.ne] at hc
      rcases List.mem_singleton.1 hc with rfl
      exact (tame_stripL hcur).2.1
  | cons s rest ih =>
    intro cur hs hcur c hc
    have hss : Sane s := hs s (by simp)
    have hrest : ∀ u ∈ rest, Sane u := fun u hu => hs u (by simp [hu])
    rw [sentLoop] at hc
    by_cases hcond : cur.length + s.length > cs ∧ cur ≠ []
    · rw [if_pos hcond] at hc
      have hct : Tame cur := by
        rcases hcur with hcur | hcur
        · exact absurd hcur hcond.2
        · exact hcur
      rcases List.mem_cons.1 hc with hc | hc
      · subst hc
        exact (tame_stripL hct).2.1
      · exact ih _ hrest (Or.inr (seedBuf_tame hct hss)) c hc
    · rw [if_neg hcond] at hc
      rcases hcur with hcur | hcur
      · rw [if_pos hcur] at hc
        exact ih _ hrest (Or.inr hss.toTame) c hc
      · rw [if_neg hcur.ne] at hc
        exact ih _ hrest (Or.inr (tame_append hcur hss)) c hc

theorem sentLoop_head {cs ov : Nat} :
    ∀ (sents : List (List Char)) (cur : List Char), (∀ s ∈ sents, Sane s) → Tame cur →
      ∃ e L2, sentLoop cs ov cur sents = (stripL cur ++ e) :: L2 := by
  intro sents
  induction sents with
  | nil =>
    intro cur _ hcur
    refine ⟨[], [], ?_⟩
    rw [sentLoop, if_pos (tame_stripL hcur).2.1.ne, List.append_nil]
  | cons s rest ih =>
    intro cur hs hcur
    have hss : Sane s := hs s (by simp)
    have hrest : ∀ u ∈ rest, Sane u := fun u hu => hs u (by simp [hu])
    rw [sentLoop]
    by_cases hcond : cur.length + s.length > cs ∧ cur ≠ []
    · rw [if_pos hcond]
      exact ⟨[], _, by rw [List.append_nil]⟩
    · rw [if_neg hcond, if_neg hcur.ne]
      obtain ⟨e, L2, heq⟩ := ih (cur ++ ' ' :: s) hrest (tame_append hcur hss)
      refine ⟨' ' :: s ++ e, L2, ?_⟩
      rw [heq, stripL_append hcur hss]
      rw [List.append_assoc]

theorem sentLoop_blen {cs ov : Nat} :
    ∀ (sents : List (List Char)) (cur : List Char), (∀ s ∈ sents, Sane s) →
      (cur = [] ∨ Tame cur) →
      blen sents + (if cur = [] then 0 else (stripL cur).length + 1) ≤
        blen (sentLoop cs ov cur sents) := by
  intro sents
  induction sents with
  | nil =>
    intro cur _ hcur
    rw [sentLoop]
    rcases hcur with hcur | hcur
    · subst hcur
      have h0 : ¬ (stripL ([] : List Char) ≠ []) := fun h => h rfl
      rw [if_neg h0, if_pos rfl]
      simp [blen]
    · rw [if_pos (tame_stripL hcur).2.1.ne, if_neg hcur.ne]
      simp [blen]
  | cons s rest ih =>
    intro cur hs hcur
    have hss : Sane s := hs s (by simp)
    have hrest : ∀ u ∈ rest, Sane u := fun u hu => hs u (by simp [hu])
    have hblen : blen (s :: rest) = s.length + 1 + blen rest := by
      unfold blen
      simp only [List.map_cons, List.sum_cons]
    rw [sentLoop]
    by_cases hcond : cur.length + s.length > cs ∧ cur ≠ []
    · rw [if_pos hcond]
      have hct : Tame cur := by
        rcases hcur with hcur | hcur
        · exact absurd hcur hcond.2
        · exact hcur
      have hseedt : Tame (seedBuf ov cur s) := seedBuf_tame hct hss
      have hih := ih (seedBuf ov cur s) hrest (Or.inr hseedt)
      rw [if_neg hseedt.ne] at hih
      have hseedlen : s.length + 1 ≤ (stripL (seedBuf ov cur s)).length + 1 := by
        have h1 := (tame_stripL hseedt).2.2
        unfold seedBuf at h1 ⊢
        by_cases hcarry : 0 < ov ∧ ov < cur.length
        · rw [if_pos hcarry] at h1 ⊢
          rw [List.length_append, List.length_cons] at h1
          omega
        · rw [if_neg hcarry] at h1 ⊢
          rw [sane_stripL hss]
      have hout : blen (stripL cur :: sentLoop cs ov (seedBuf ov cur s) rest) =
          (stripL cur).length + 1 + blen (sentLoop cs ov (seedBuf ov cur s) rest) := by
        unfold blen
        simp only [List.map_cons, List.sum_cons]
      rw [hout, if_neg hcond.2, hblen]
      omega
    · rw [if_neg hcond]
      rcases hcur with hcur | hcur
      · rw [if_pos hcur, if_pos hcur]
        have hih := ih s hrest (Or.inr hss.toTame)
        rw [if_neg hss.ne, sane_stripL hss] at hih
        rw [hblen]
        omega
      · rw [if_neg hcur.ne, if_neg hcur.ne]
        have hih := ih (cur ++ ' ' :: s) hrest (Or.inr (tame_append hcur hss))
        rw [if_neg (by simp), stripL_append hcur hss,
          List.length_append, List.length_cons] at hih
        rw [hblen]
        omega

theorem sentLoop_join_zero {cs : Nat} :
    ∀ (sents : List (List Char)) (cur : List Char), (∀ s ∈ sents, Sane s) → Sane cur →
      joinSp (sentLoop cs 0 cur sents) = joinSp (cur :: sents) := by
  intro sents
  induction sents with
  | nil =>
    intro cur _ hcur
    rw [sentLoop, if_pos (tame_stripL hcur.toTame).2.1.ne, sane_stripL hcur]
  | cons s rest ih =>
    intro cur hs hcur
    have hss : Sane s := hs s (by simp)
    have hrest : ∀ u ∈ rest, Sane u := fun u hu => hs u (by simp [hu])
    rw [sentLoop]
    by_cases hcond : cur.length + s.length > cs ∧ cur ≠ []
    · rw [if_pos hcond]
      have hseed : seedBuf 0 cur s = s := by
        rw [seedBuf, if_neg (fun h => absurd h.1 (lt_irrefl 0))]
      rw [hseed, sane_stripL hcur,
        joinSp_cons_ne (sentLoop_ne rest s hrest hss.toTame), ih s hrest hss, joinSp_cons]
    · rw [if_neg hcond, if_neg hcur.ne, ih _ hrest (sane_append hcur hss), joinSp_merge]

theorem startsList_append_self : ∀ (x y : List Char), startsList x (x ++ y) = true := by
  intro x
  induction x with
  | nil =>
    intro y
    rfl
  | cons a as ih =>
    intro y
    show (a == a && startsList as (as ++ y)) = true
    rw [ih y]
    simp

theorem suffix_lastK {l' l : List Char} {k : Nat} (h : l' <:+ l) (hk : k ≤ l'.length) :
    lastK k l' = lastK k l := by
  obtain ⟨pre, rfl⟩ := h
  unfold lastK
  rw [List.length_append]
  have h1 : pre.length + l'.length - k = pre.length + (l'.length - k) := by omega
  rw [h1, ← List.drop_drop, List.drop_left]

theorem lastK_zero (l : List Char) : lastK 0 l = [] := by
  unfold lastK
  rw [Nat.sub_zero, List.drop_length]

theorem sentLoop_chain {cs k : Nat} :
    ∀ (sents : List (List Char)) (cur : List Char), (∀ s ∈ sents, Sane s) → Tame cur →
      List.Chain' (fun a b => k < a.length →
        startsList ((lastK k a).dropWhile isWsB) b = true) (sentLoop cs k cur sents) := by
  intro sents
  induction sents with
  | nil =>
    intro cur _ hcur
    rw [sentLoop, if_pos (tame_stripL hcur).2.1.ne]
    exact List.chain'_singleton _
  | cons s rest ih =>
    intro cur hs hcur
    have hss : Sane s := hs s (by simp)
    have hrest : ∀ u ∈ rest, Sane u := fun u hu => hs u (by simp [hu])
    rw [sentLoop]
    by_cases hcond : cur.length + s.length > cs ∧ cur ≠ []
    · rw [if_pos hcond]
      have hseedt : Tame (seedBuf k cur s) := seedBuf_tame hcur hss
      rw [List.chain'_cons']
      refine ⟨?_, ih _ hrest hseedt⟩
      intro y hy hk
      obtain ⟨e, L2, heq⟩ := sentLoop_head rest (seedBuf k cur s) hrest hseedt
      rw [heq] at hy
      simp at hy
      subst hy
      by_cases hcarry : 0 < k ∧ k < cur.length
      · have hseed : seedBuf k cur s = lastK k cur ++ ' ' :: s := by
          rw [seedBuf, if_pos hcarry]
          rfl
        have htame : Tame (lastK k cur) := lastK_tame hcur hcarry.1 hcarry.2
        have hstrip : stripL (seedBuf k cur s) =
            (lastK k cur).dropWhile isWsB ++ ' ' :: s := by
          rw [hseed, stripL_append htame hss, (tame_stripL htame).1]
        have hlk : lastK k (stripL cur) = lastK k cur := by
          refine suffix_lastK ?_ (le_of_lt hk)
          rw [(tame_stripL hcur).1]
          exact List.dropWhile_suffix isWsB
        rw [hlk, hstrip, List.append_assoc]
        exact startsList_append_self _ _
      · by_cases hkz : k = 0
        · subst hkz
          rw [lastK_zero]
          rfl
        · exfalso
          have h1 : ¬ k < cur.length := fun hlt => hcarry ⟨Nat.pos_of_ne_zero hkz, hlt⟩
          have h2 : (stripL cur).length ≤ cur.length := by
            rw [(tame_stripL hcur).1]
            exact (List.dropWhile_suffix isWsB).length_le
          omega
    · rw [if_neg hcond, if_neg hcur.ne]
      exact ih _ hrest (tame_append hcur hss)

/-! ### Assembling `chunk_text` -/

theorem chunk_text_eq (text : List Char) (cs ov : Nat) :
    chunk_text text cs ov =
      if stripL text = [] then []
      else if (normalizeWs text).length ≤ cs then [normalizeWs text]
      else resplitChunks cs (sentLoop cs ov [] (splitSent (normalizeWs text))) := rfl

theorem sentLoop_start {cs ov : Nat} (p : List Char) (ps : List (List Char)) :
    sentLoop cs ov [] (p :: ps) = sentLoop cs ov p ps := by
  rw [sentLoop, if_neg (fun h => h.2 rfl), if_pos rfl]

theorem splitSent_cons {t : List Char} (h : Sane t) :
    ∃ p ps, splitSent t = p :: ps ∧ Sane p ∧ (∀ q ∈ ps, Sane q) ∧ joinSp (p :: ps) = t := by
  obtain ⟨hjoin, hsane⟩ := splitSent_sane h
  cases hsp : splitSent t with
  | nil =>
    rw [hsp] at hjoin
    exact absurd hjoin.symm h.ne
  | cons p ps =>
    rw [hsp] at hjoin hsane
    exact ⟨p, ps, rfl, hsane p (by simp), fun q hq => hsane q (by simp [hq]), hjoin⟩

theorem normalizeWs_nil_of_strip {text : List Char} (h : stripL text = []) :
    normalizeWs text = [] := by
  rw [normalizeWs, wordsOf_eq_nil_iff.2 (stripL_eq_nil_iff.1 h)]
  rfl

theorem blen_eq_sumLens (L : List (List Char)) : blen L = sumLens L + L.length := by
  induction L with
  | nil => rfl
  | cons c rest ih =>
    unfold blen sumLens at ih ⊢
    simp only [List.map_cons, List.sum_cons, List.length_cons]
    omega

/-! ### The claims about `chunk_text` -/

/-- C1: for every input text, every chunk_size > 0 and any configured
overlap, each chunk returned by `chunk_text` has length at most `chunk_size`,
except that a chunk may exceed the bound only when it is a single
whitespace-free word (and hence was emitted whole by the word-repacking
pass, never split). -/
theorem chunk_text_size (text : List Char) (cs ov : Nat) (hcs : 0 < cs) :
    ∀ c ∈ chunk_text text cs ov,
      c.length ≤ cs ∨ (cs < c.length ∧ ∀ ch ∈ c, isWsB ch = false) := by
  intro c hc
  rw [chunk_text_eq] at hc
  by_cases h1 : stripL text = []
  · rw [if_pos h1] at hc
    simp at hc
  · rw [if_neg h1] at hc
    by_cases h2 : (normalizeWs text).length ≤ cs
    · rw [if_pos h2] at hc
      rcases List.mem_singleton.1 hc with rfl
      exact Or.inl h2
    · rw [if_neg h2] at hc
      rcases resplitChunks_sizes _ c hc with h | h
      · exact Or.inl h
      · by_cases h3 : c.length ≤ cs
        · exact Or.inl h3
        · exact Or.inr ⟨by omega, h⟩

theorem chunk_text_size_witness :
    0 < 3 ∧
      (("cdefgh".data).length ≤ 3 ∨
        (3 < ("cdefgh".data).length ∧ ∀ ch ∈ "cdefgh".data, isWsB ch = false)) :=
  ⟨by decide, chunk_text_size ("ab cdefgh".data) 3 0 (by decide) ("cdefgh".data)
    (by decide)⟩

/-- C10: every chunk returned by `chunk_text` is non-empty and carries no
leading or trailing whitespace (it equals its own stripped form). -/
theorem chunk_text_trimmed (text : List Char) (cs ov : Nat) :
    ∀ c ∈ chunk_text text cs ov, c ≠ [] ∧ stripL c = c := by
  intro c hc
  rw [chunk_text_eq] at hc
  by_cases h1 : stripL text = []
  · rw [if_pos h1] at hc
    simp at hc
  · rw [if_neg h1] at hc
    have hsane := normalizeWs_sane (stripL_ne_words_ne h1)
    by_cases h2 : (normalizeWs text).length ≤ cs
    · rw [if_pos h2] at hc
      rcases List.mem_singleton.1 hc with rfl
      exact ⟨hsane.ne, sane_stripL hsane⟩
    · rw [if_neg h2] at hc
      obtain ⟨p, ps, hsp, hp, hps, _⟩ := splitSent_cons hsane
      rw [hsp, sentLoop_start] at hc
      have hAll : ∀ u ∈ sentLoop cs ov p ps, Sane u :=
        sentLoop_sane ps p hps (Or.inr hp.toTame)
      have hcs : Sane c := resplitChunks_sane _ hAll c hc
      exact ⟨hcs.ne, sane_stripL hcs⟩

theorem chunk_text_trimmed_witness :
    "hi".data ≠ [] ∧ stripL ("hi".data) = "hi".data :=
  chunk_text_trimmed (" hi ".data) 9 0 ("hi".data) (by decide)

/-- C2: with overlap 0, joining the returned chunks with a single space
reproduces exactly the whitespace-normalized input text. -/
theorem chunk_text_join_zero (text : List Char) (cs : Nat) :
    joinSp (chunk_text text cs 0) = normalizeWs text := by
  rw [chunk_text_eq]
  by_cases h1 : stripL text = []
  · rw [if_pos h1, normalizeWs_nil_of_strip h1]
    rfl
  · rw [if_neg h1]
    have hsane := normalizeWs_sane (stripL_ne_words_ne h1)
    by_cases h2 : (normalizeWs text).length ≤ cs
    · rw [if_pos h2]
      rfl
    · rw [if_neg h2]
      obtain ⟨p, ps, hsp, hp, hps, hjoin⟩ := splitSent_cons hsane
      rw [hsp, sentLoop_start]
      have hAll : ∀ u ∈ sentLoop cs 0 p ps, Sane u :=
        sentLoop_sane ps p hps (Or.inr hp.toTame)
      rw [resplitChunks_join _ hAll, sentLoop_join_zero ps p hps hp, hjoin]

/-- C5 counterexample: with overlap 2 > 0 and chunk_size 5, the text
"hello  world" (12 characters, 11 after normalization) is chunked into
"hello" and "world", whose lengths sum to 10 — less than both the original
and the normalized length. -/
theorem chunk_text_sum_counterexample :
    0 < 2 ∧
      chunk_text ("hello  world".data) 5 2 = ["hello".data, "world".data] ∧
      sumLens (chunk_text ("hello  world".data) 5 2) = 10 ∧
      ("hello  world".data).length = 12 ∧
      (normalizeWs ("hello  world".data)).length = 11 ∧
      ¬ ("hello  world".data).length ≤ sumLens (chunk_text ("hello  world".data) 5 2) := by
  refine ⟨by decide, by decide, by decide, by decide, by decide, by decide⟩

/-- C5 amended: for every text, chunk size and overlap > 0, the chunk
lengths sum to at least the length of the whitespace-normalized text minus
one space per chunk boundary (the re-split pass drops one separating space
per boundary, and normalization may shrink the raw text). -/
theorem chunk_text_length_lower (text : List Char) (cs ov : Nat) (hov : 0 < ov) :
    (normalizeWs text).length ≤
      sumLens (chunk_text text cs ov) + ((chunk_text text cs ov).length - 1) := by
  rw [chunk_text_eq]
  by_cases h1 : stripL text = []
  · rw [if_pos h1, normalizeWs_nil_of_strip h1]
    simp [sumLens]
  · rw [if_neg h1]
    have hsane := normalizeWs_sane (stripL_ne_words_ne h1)
    by_cases h2 : (normalizeWs text).length ≤ cs
    · rw [if_pos h2]
      simp [sumLens]
    · rw [if_neg h2]
      obtain ⟨p, ps, hsp, hp, hps, hjoin⟩ := splitSent_cons hsane
      rw [hsp, sentLoop_start]
      have hAll : ∀ u ∈ sentLoop cs ov p ps, Sane u :=
        sentLoop_sane ps p hps (Or.inr hp.toTame)
      have hb1 := @sentLoop_blen cs ov ps p hps (Or.inr hp.toTame)
      rw [if_neg hp.ne, sane_stripL hp] at hb1
      have hb2 : blen (p :: ps) ≤ blen (sentLoop cs ov p ps) := by
        unfold blen at hb1 ⊢
        simp only [List.map_cons, List.sum_cons]
        omega
      have hb3 : (normalizeWs text).length + 1 = blen (p :: ps) := by
        rw [← hjoin]
        exact blen_join (by simp)
      have hb4 := @resplitChunks_blen cs (sentLoop cs ov p ps) hAll
      have hb5 := blen_eq_sumLens (resplitChunks cs (sentLoop cs ov p ps))
      omega

theorem chunk_text_length_lower_witness :
    (normalizeWs ("hello  world".data)).length ≤
      sumLens (chunk_text ("hello  world".data) 5 2) +
        ((chunk_text ("hello  world".data) 5 2).length - 1) :=
  chunk_text_length_lower ("hello  world".data) 5 2 (by decide)

/-- C3 counterexample: with overlap k = 2 and chunk_size 5 (0 < k < size),
chunking "ab. cdef." yields three chunks, and the third chunk "cdef." does
not begin with the last two characters "b." of the second chunk "b.". -/
theorem chunk_text_overlap_counterexample :
    0 < 2 ∧ 2 < 5 ∧
      chunk_text ("ab. cdef.".data) 5 2 = ["ab.".data, "b.".data, "cdef.".data] ∧
      lastK 2 ("b.".data) = "b.".data ∧
      startsList (lastK 2 ("b.".data)) ("cdef.".data) = false := by
  refine ⟨by decide, by decide, by decide, by decide, by decide⟩

/-- C3 amended: in the intermediate chunk sequence of the sentence phase
(before the oversized-chunk word re-split), whenever a chunk's predecessor
is longer than the overlap k, the chunk begins with the predecessor's last
k characters less any leading whitespace of that tail (closing a buffer
strips at most one space carried in at its front). The word re-split pass
may break adjacency, as the counterexample shows. -/
theorem sentChunks_overlap (text : List Char) (cs k : Nat) :
    List.Chain' (fun a b => k < a.length →
      startsList ((lastK k a).dropWhile isWsB) b = true) (sentChunks text cs k) := by
  unfold sentChunks
  by_cases h1 : wordsOf text = []
  · have h2 : normalizeWs text = [] := by
      rw [normalizeWs, h1]
      rfl
    rw [h2]
    have h3 : splitSent ([] : List Char) = [[]] := rfl
    rw [h3, sentLoop, if_neg (fun h => h.2 rfl), if_pos rfl, sentLoop,
      if_neg (fun h => h rfl)]
    exact List.chain'_nil
  · have hsane := normalizeWs_sane h1
    obtain ⟨p, ps, hsp, hp, hps, _⟩ := splitSent_cons hsane
    rw [hsp, sentLoop_start]
    exact sentLoop_chain ps p hps hp.toTame

/-! ### The claims about the score normalizer -/

/-- C4: `correct_pgvector_score` follows the spec's case analysis: "N/A" and
None pass through unchanged, +infinity maps to 1.0, any value ≤ 0 maps to
0.0, and a positive finite value q maps to `(clamp(1 - 1/q, -1, 1) + 1)/2`;
in particular 1.0 maps to 0.5, 0 maps to 0.0 and -5 maps to 0.0. -/
theorem correct_pgvector_score_spec :
    (∀ q : ℚ, 0 < q →
      correct_pgvector_score (.num q) = .val ((max (-1) (min 1 (1 - 1 / q)) + 1) / 2)) ∧
    (∀ q : ℚ, q ≤ 0 → correct_pgvector_score (.num q) = .val 0) ∧
    correct_pgvector_score .na = .pass .na ∧
    correct_pgvector_score .noneV = .pass .noneV ∧
    correct_pgvector_score .inf = .val 1 ∧
    correct_pgvector_score (.num 1) = .val (1 / 2) ∧
    correct_pgvector_score (.num 0) = .val 0 ∧
    correct_pgvector_score (.num (-5)) = .val 0 := by
  refine ⟨?_, ?_, rfl, rfl, rfl, ?_, ?_, ?_⟩
  · intro q hq
    show (if q ≤ 0 then PyScoreOut.val 0 else PyScoreOut.val (pgvectorFormula q)) = _
    rw [if_neg (not_le.2 hq)]
    rfl
  · intro q hq
    show (if q ≤ 0 then PyScoreOut.val 0 else PyScoreOut.val (pgvectorFormula q)) = _
    rw [if_pos hq]
  · show (if (1 : ℚ) ≤ 0 then PyScoreOut.val 0 else PyScoreOut.val (pgvectorFormula 1)) = _
    rw [if_neg (by norm_num)]
    unfold pgvectorFormula
    norm_num
  · show (if (0 : ℚ) ≤ 0 then PyScoreOut.val 0 else PyScoreOut.val (pgvectorFormula 0)) = _
    rw [if_pos le_rfl]
  · show (if (-5 : ℚ) ≤ 0 then PyScoreOut.val 0 else PyScoreOut.val (pgvectorFormula (-5))) = _
    rw [if_pos (by norm_num)]

theorem correct_pgvector_score_spec_witness :
    correct_pgvector_score (.num 2) =
      .val ((max (-1) (min 1 (1 - 1 / (2 : ℚ))) + 1) / 2) :=
  correct_pgvector_score_spec.1 2 (by norm_num)

/-- C6 counterexample: an argument of a non-string non-number type (such as
a list) makes the `float()` call raise TypeError, which the handler
`except (ValueError, ZeroDivisionError)` does not catch, so the function
raises instead of returning. -/
theorem correct_pgvector_score_raises :
    correct_pgvector_score .nonNumeric = .typeError := rfl

/-- C6 amended: for every input that is None, a string, or a real number,
`correct_pgvector_score` returns normally, and a string that fails numeric
conversion is returned unchanged; only a non-string non-number argument
escapes with an uncaught TypeError from `float()`. -/
theorem correct_pgvector_score_no_raise (v : PyScoreIn) (h : v ≠ .nonNumeric) :
    correct_pgvector_score v ≠ .typeError ∧
      correct_pgvector_score .badStr = .pass .badStr := by
  refine ⟨?_, rfl⟩
  cases v with
  | na => exact fun h0 => PyScoreOut.noConfusion h0
  | noneV => exact fun h0 => PyScoreOut.noConfusion h0
  | inf => exact fun h0 => PyScoreOut.noConfusion h0
  | ninf => exact fun h0 => PyScoreOut.noConfusion h0
  | badStr => exact fun h0 => PyScoreOut.noConfusion h0
  | nonNumeric => exact absurd rfl h
  | num q =>
    show (if q ≤ 0 then PyScoreOut.val 0 else PyScoreOut.val (pgvectorFormula q)) ≠ _
    by_cases hq : q ≤ 0
    · rw [if_pos hq]
      exact fun h0 => PyScoreOut.noConfusion h0
    · rw [if_neg hq]
      exact fun h0 => PyScoreOut.noConfusion h0
  | numStr q =>
    show (if q ≤ 0 then PyScoreOut.val 0 else PyScoreOut.val (pgvectorFormula q)) ≠ _
    by_cases hq : q ≤ 0
    · rw [if_pos hq]
      exact fun h0 => PyScoreOut.noConfusion h0
    · rw [if_neg hq]
      exact fun h0 => PyScoreOut.noConfusion h0

theorem correct_pgvector_score_no_raise_witness :
    correct_pgvector_score .na ≠ .typeError ∧
      correct_pgvector_score .badStr = .pass .badStr :=
  correct_pgvector_score_no_raise .na (by decide)

/-! ### The claims about the metadata extractors -/

/-- C8 counterexample: when reading or parsing the JSON file fails,
`JSONProcessor.extract_metadata` returns an empty dict, which contains none
of the three always-expected keys. -/
theorem json_metadata_missing_keys :
    hasKey "file_extension" (json_extract_metadata Option.none) = false ∧
      hasKey "processing_method" (json_extract_metadata Option.none) = false ∧
      hasKey "processor" (json_extract_metadata Option.none) = false := by
  refine ⟨rfl, rfl, rfl⟩

/-- C8 amended: `PDFProcessor.extract_metadata` always contains the keys
file_extension, processing_method and processor, including on failure (the
`_basic_metadata` fallback); `JSONProcessor.extract_metadata` contains them
whenever the file parses, but returns an empty mapping when extraction
fails. -/
theorem extract_metadata_keys :
    (∀ p : Option PdfDoc,
      hasKey "file_extension" (pdf_extract_metadata p) = true ∧
        hasKey "processing_method" (pdf_extract_metadata p) = true ∧
        hasKey "processor" (pdf_extract_metadata p) = true) ∧
    (∀ j : Json,
      hasKey "file_extension" (json_extract_metadata (some j)) = true ∧
        hasKey "processing_method" (json_extract_metadata (some j)) = true ∧
        hasKey "processor" (json_extract_metadata (some j)) = true) := by
  constructor
  · intro p
    cases p with
    | none => exact ⟨rfl, rfl, rfl⟩
    | some d => exact ⟨rfl, rfl, rfl⟩
  · intro j
    cases j <;> exact ⟨rfl, rfl, rfl⟩

/-! ### The claim about path safety -/

/-- C9: any path containing the substring ".." is rejected by
`_is_safe_path` regardless of the state of the file system, and
`process_document` then returns `("", empty metadata, False)` without
invoking any extractor. -/
theorem unsafe_path_rejected (path : List Char) (env : ProcEnv)
    (h : hasDotDot path = true) :
    is_safe_path path env.meta = false ∧
      process_document path env = (("", [], false), false) := by
  have h1 : is_safe_path path env.meta = false := by
    rw [is_safe_path, if_pos h]
  refine ⟨h1, ?_⟩
  rw [process_document, h1]
  simp

theorem unsafe_path_rejected_witness :
    is_safe_path ("../../etc/passwd".data)
        (ProcEnv.mk ⟨true, true, 10⟩ 1000 true "text" [] true "x" []).meta = false ∧
      process_document ("../../etc/passwd".data)
        (ProcEnv.mk ⟨true, true, 10⟩ 1000 true "text" [] true "x" []) =
        (("", [], false), false) :=
  unsafe_path_rejected ("../../etc/passwd".data)
    (ProcEnv.mk ⟨true, true, 10⟩ 1000 true "text" [] true "x" []) (by decide)

/-! ### The claim about batch ingestion -/

theorem ingest_cons (maxSize cs ov : Nat) (f : UploadDoc) (rest : List UploadDoc) :
    ingest maxSize cs ov (f :: rest) =
      if docOk maxSize f then
        ⟨(ingest maxSize cs ov rest).processed_files + 1,
         (ingest maxSize cs ov rest).failed_files,
         (ingest maxSize cs ov rest).errors,
         (f.filename, chunk_text (docText f).data cs ov) ::
           (ingest maxSize cs ov rest).inserted⟩
      else
        ⟨(ingest maxSize cs ov rest).processed_files,
         (ingest maxSize cs ov rest).failed_files + 1,
         docErrorMsg maxSize f :: (ingest maxSize cs ov rest).errors,
         (ingest maxSize cs ov rest).inserted⟩ := rfl

/-- C7: every per-document failure in the `/ingest` loop only increments
`failed_files` and appends that document's error message; every other
document is still fully processed (counted and its chunk batch inserted).
In particular, for a batch of three documents where the second exceeds the
size ceiling, the final stats report 2 processed and 1 failed with a
size-related error naming the second document, and the first and third
documents' chunk batches are both inserted. -/
theorem ingest_isolation :
    (∀ (maxSize cs ov : Nat) (files : List UploadDoc),
      (ingest maxSize cs ov files).processed_files =
          (files.filter (fun f => docOk maxSize f)).length ∧
        (ingest maxSize cs ov files).failed_files =
          (files.filter (fun f => !docOk maxSize f)).length ∧
        (ingest maxSize cs ov files).errors =
          (files.filter (fun f => !docOk maxSize f)).map (docErrorMsg maxSize) ∧
        (ingest maxSize cs ov files).inserted =
          (files.filter (fun f => docOk maxSize f)).map
            (fun f => (f.filename, chunk_text (docText f).data cs ov))) ∧
    ingest 100 1000 200
        [⟨"doc1.txt", some 10, .extracted "Hello world."⟩,
         ⟨"doc2.pdf", some 2000, .extracted "Big document."⟩,
         ⟨"doc3.txt", some 10, .extracted "Third document."⟩] =
      ⟨2, 1, ["File doc2.pdf exceeds maximum size (100 bytes)"],
       [("doc1.txt", ["Hello world.".data]), ("doc3.txt", ["Third document.".data])]⟩ := by
  constructor
  · intro maxSize cs ov files
    induction files with
    | nil => exact ⟨rfl, rfl, rfl, rfl⟩
    | cons f rest ih =>
      rw [ingest_cons]
      by_cases h : docOk maxSize f = true
      · rw [if_pos h]
        refine ⟨?_, ?_, ?_, ?_⟩ <;>
          simp [List.filter_cons, h, ih.1, ih.2.1, ih.2.2.1, ih.2.2.2]
      · rw [if_neg h]
        have hb : docOk maxSize f = false := by
          cases hd : docOk maxSize f
          · rfl
          · exact absurd hd h
        refine ⟨?_, ?_, ?_, ?_⟩ <;>
          simp [List.filter_cons, hb, ih.1, ih.2.1, ih.2.2.1, ih.2.2.2]
  · rfl

end Boann
